import Mathlib

set_option maxHeartbeats 1000000

/-!
Shallow embedding of the syslog server (src/main.rs): the priority
parser, the record builder, the CSV writer, the per-message handler
state transition, and a spec-level model of the bounded ingestion
queue.  Strings are modelled as lists of characters; the delimiters
the parser searches for are ASCII, so byte positions and character
positions agree in relative order and the character-level model is
faithful, including the out-of-range slice the source performs when
the first closing delimiter precedes the first opening one.
-/

/-- Result of running Rust code that may panic: `crash` models a panic
(here, the out-of-bounds string slice in `parse_priority`), `ret` a
normal return. -/
inductive RustResult (α : Type) where
  | crash : RustResult α
  | ret : α → RustResult α
deriving DecidableEq

/-- Decimal printing, structurally recursive on a fuel bound so that
it evaluates inside the kernel; any fuel above the value suffices. -/
def natCharsFuel : Nat → Nat → List Char
  | 0, _ => []
  | fuel + 1, n =>
    if n < 10 then [Nat.digitChar n]
    else natCharsFuel fuel (n / 10) ++ [Nat.digitChar (n % 10)]

/-- Decimal digit characters of `n`, most significant first, as Rust's
`Display` for unsigned integers prints them. -/
def natChars (n : Nat) : List Char := natCharsFuel (n + 1) n

/-- Numeric value of a list of decimal digit characters, accumulated
left to right as Rust's integer `from_str` does. -/
def digitsVal (l : List Char) : Nat :=
  l.foldl (fun a c => a * 10 + (c.toNat - 48)) 0

/-- Rust's unsigned `from_str` strips a single leading `+` sign. -/
def stripPlus (s : List Char) : List Char :=
  match s with
  | c :: rest => if c = '+' then rest else s
  | [] => s

/-- Rust's `str::parse::<u8>`: an optional leading `+`, then one or
more ASCII digits whose value fits in a `u8`; anything else (empty,
non-digit, overflow past 255) is an error, here `none`. -/
def parseU8 (s : List Char) : Option Nat :=
  let digits := stripPlus s
  if digits ≠ [] ∧ digits.all Char.isDigit ∧ digitsVal digits ≤ 255 then
    some (digitsVal digits)
  else none

/-- `LogHandler::parse_priority`: find the first `<` and the first `>`
(the source searches for `>` from the start of the text, not from the
`<`), slice the text between them — when the `>` sits before the `<`
the Rust range `pri_start + 1..pri_end` is invalid and the slice
panics (`crash`) — then parse the slice as a `u8` and return
`(pri >> 3, pri & 7)`. -/
def parse_priority (s : List Char) : RustResult (Except String (Nat × Nat)) :=
  match s.findIdx? (· == '<') with
  | none => .ret (.error "No priority found")
  | some i =>
    match s.findIdx? (· == '>') with
    | none => .ret (.error "Malformed priority")
    | some j =>
      if i + 1 ≤ j then
        match parseU8 ((s.take j).drop (i + 1)) with
        | none => .ret (.error "invalid digit found in string")
        | some p => .ret (.ok (p >>> 3, p &&& 7))
      else .crash

/-- Rust's `char::is_whitespace` (the Unicode White_Space property),
which `str::trim` uses. -/
def rustIsWhitespace (c : Char) : Bool :=
  (9 ≤ c.toNat && c.toNat ≤ 13) || c.toNat == 32 || c.toNat == 133 ||
  c.toNat == 160 || c.toNat == 5760 ||
  (8192 ≤ c.toNat && c.toNat ≤ 8202) || c.toNat == 8232 ||
  c.toNat == 8233 || c.toNat == 8239 || c.toNat == 8287 ||
  c.toNat == 12288

/-- Rust's `str::replace(t, "")`: delete every occurrence of `t`. -/
def replaceChar (t : Char) : List Char → List Char
  | [] => []
  | c :: cs => if c = t then replaceChar t cs else c :: replaceChar t cs

/-- Rust's `str::trim_start`. -/
def rustTrimStart (s : List Char) : List Char :=
  s.dropWhile rustIsWhitespace

/-- Rust's `str::trim_end`. -/
def rustTrimEnd (s : List Char) : List Char :=
  (s.reverse.dropWhile rustIsWhitespace).reverse

/-- Rust's `str::trim`: drop whitespace from both ends. -/
def rustTrim (s : List Char) : List Char :=
  rustTrimEnd (rustTrimStart s)

/-- A broken-down local clock reading, the input to
`Local::now().format(..)`. -/
structure Timestamp where
  year : Nat
  month : Nat
  day : Nat
  hour : Nat
  minute : Nat
  second : Nat
  millisecond : Nat
deriving DecidableEq

/-- Zero-pad to two digits, as chrono's `%m`, `%d`, `%H`, `%M`, `%S`. -/
def pad2 (n : Nat) : List Char :=
  if n < 10 then '0' :: natChars n else natChars n

/-- Zero-pad to three digits, as the fractional part of `%.3f`. -/
def pad3 (n : Nat) : List Char :=
  if n < 10 then '0' :: '0' :: natChars n
  else if n < 100 then '0' :: natChars n
  else natChars n

/-- Zero-pad to four digits, as chrono's `%Y`. -/
def pad4 (n : Nat) : List Char :=
  if n < 10 then '0' :: '0' :: '0' :: natChars n
  else if n < 100 then '0' :: '0' :: natChars n
  else if n < 1000 then '0' :: natChars n
  else natChars n

/-- chrono's format string `%Y-%m-%d %H:%M:%S%.3f` applied to a clock
reading. -/
def formatTimestamp (t : Timestamp) : List Char :=
  pad4 t.year ++ '-' :: pad2 t.month ++ '-' :: pad2 t.day ++
    ' ' :: pad2 t.hour ++ ':' :: pad2 t.minute ++ ':' :: pad2 t.second ++
    '.' :: pad3 t.millisecond

/-- The `SysLogEntry` struct; field names and order as declared in the
source (serde serializes them in declaration order, and the CSV header
uses these names — the message column is called `syslog`). Numeric
fields are `u8` in the source, embedded as `Nat` (their values stay
below 256). -/
structure SysLogEntry where
  event_time : List Char
  device_ip : List Char
  syslog : List Char
  severity : Nat
  facility : Nat
deriving DecidableEq

/-- The csv crate's default quoting policy (`QuoteStyle::Necessary`):
a field is quoted exactly when it contains the quote, the delimiter,
or a line terminator byte. -/
def needsQuote (f : List Char) : Bool :=
  f.any (fun c => c == '"' || c == ',' || c == '\n' || c == '\r')

/-- Double every `"` inside a quoted field (the writer is built with
`double_quote(true)`, the default escaping style). -/
def escapeQuotes : List Char → List Char
  | [] => []
  | c :: cs =>
    if c = '"' then '"' :: '"' :: escapeQuotes cs
    else c :: escapeQuotes cs

/-- Serialize one field: wrap in quotes (escaping inner quotes) only
when the field needs it. -/
def quoteField (f : List Char) : List Char :=
  if needsQuote f then '"' :: (escapeQuotes f ++ ['"']) else f

/-- Join already-serialized fields with the `,` delimiter. -/
def joinComma : List (List Char) → List Char
  | [] => []
  | [f] => f
  | f :: fs => f ++ ',' :: joinComma fs

/-- One CSV record: delimited fields followed by the `\n` record
terminator the csv writer emits. -/
def serializeRow (fields : List (List Char)) : List Char :=
  joinComma (fields.map quoteField) ++ ['\n']

/-- The header fields the csv writer derives from the struct's field
names, in declaration order. -/
def headerFields : List (List Char) :=
  ["event_time".toList, "device_ip".toList, "syslog".toList,
   "severity".toList, "facility".toList]

/-- The serialized header row. -/
def headerRow : List Char :=
  serializeRow headerFields

/-- The field values of one record, in serialization order; the `u8`
fields print as decimal digits. -/
def entryFields (e : SysLogEntry) : List (List Char) :=
  [e.event_time, e.device_ip, e.syslog,
   natChars e.severity, natChars e.facility]

/-- `LogHandler::write_to_csv`: open the store for append (creating it
if absent — an absent file and an empty file both have length zero,
so both are the empty list here), emit the header first when the store
was empty at open (`has_headers(needs_headers)`), then the record, and
flush.  The store contents are the byte sequence of the file. -/
def write_to_csv (store : List Char) (e : SysLogEntry) : List Char :=
  let needs_headers := store.length = 0
  store ++ (if needs_headers then headerRow else []) ++ serializeRow (entryFields e)

/-- The record `handle_log` constructs: current clock formatted, the
source address, the datagram text with `\n` removed and then trimmed
(the priority prefix is not stripped), and the parsed fields. -/
def buildEntry (now : Timestamp) (source_ip log_data : List Char)
    (facility severity : Nat) : SysLogEntry :=
  { event_time := formatTimestamp now
    device_ip := source_ip
    syslog := rustTrim (replaceChar '\n' log_data)
    severity := severity
    facility := facility }

/-- The observable state a `handle_log` call touches: the two
monotonic counters and the output store. -/
structure HState where
  received : Nat
  written : Nat
  store : List Char
deriving DecidableEq

/-- Outcome of one `handle_log` call: either the task panicked (the
slice panic propagating out of `parse_priority`) or it returned a
`Result`, in both cases with the state it left behind. -/
inductive HOutcome where
  | panicked : HState → HOutcome
  | returned : HState → Except String Unit → HOutcome

/-- `LogHandler::handle_log`: increment the received counter, parse
the priority (an error returns early with `?`), build the record,
append it to the store, and only then increment the written counter. -/
def handle_log (st : HState) (now : Timestamp) (source_ip log_data : List Char) :
    HOutcome :=
  let st1 : HState := { st with received := st.received + 1 }
  match parse_priority log_data with
  | .crash => .panicked st1
  | .ret (.error e) => .returned st1 (.error e)
  | .ret (.ok (facility, severity)) =>
    let entry := buildEntry now source_ip log_data facility severity
    let st2 : HState := { st1 with store := write_to_csv st1.store entry }
    .returned { st2 with written := st2.written + 1 } (.ok ())

/-- The whole store after writing each record of `es` in turn with a
single sequential writer, starting from an absent (empty) store. -/
def writeAll (es : List SysLogEntry) : List Char :=
  es.foldl write_to_csv []

/-- The concatenation of a list of serialized rows — what a store
holding exactly those rows contains. -/
def rowsJoin (rows : List (List (List Char))) : List Char :=
  match rows with
  | [] => []
  | r :: rs => serializeRow r ++ rowsJoin rs

/-- Modelled from the spec: re-parsing the Output Store "as the same
tabular format".  Scan one unquoted CSV field: everything up to the
delimiter or the record terminator is field content (the reader treats
a quote that is not at the start of a field as a literal character).
Returns the field and the rest, which starts at the delimiter or
terminator when one is present. -/
def scanUnquoted : List Char → List Char × List Char
  | [] => ([], [])
  | c :: r =>
    if c = ',' ∨ c = '\n' then ([], c :: r)
    else (c :: (scanUnquoted r).1, (scanUnquoted r).2)

/-- Modelled from the spec: scan a quoted CSV field after its opening
quote.  A doubled quote is a literal quote, a single quote closes the
field; an unterminated field is a parse error. -/
def scanQuoted : List Char → Option (List Char × List Char)
  | [] => none
  | c :: r =>
    if c = '"' then
      match r with
      | [] => some ([], [])
      | d :: r2 =>
        if d = '"' then (scanQuoted r2).map (fun p => ('"' :: p.1, p.2))
        else some ([], d :: r2)
    else (scanQuoted r).map (fun p => (c :: p.1, p.2))

/-- Modelled from the spec: parse one CSV field, quoted when it starts
with a quote, unquoted otherwise. -/
def parseField (s : List Char) : Option (List Char × List Char) :=
  match s with
  | [] => some ([], [])
  | c :: r => if c = '"' then scanQuoted r else some (scanUnquoted (c :: r))

/-- Modelled from the spec: parse one CSV record — fields separated by
commas, ended by the record terminator or the end of input.  `fuel`
bounds the number of fields; it only needs to reach the actual field
count. -/
def parseRowFuel : Nat → List Char → Option (List (List Char) × List Char)
  | 0, _ => none
  | fuel + 1, s =>
    match parseField s with
    | none => none
    | some (f, rest) =>
      match rest with
      | [] => some ([f], [])
      | c :: r =>
        if c = ',' then (parseRowFuel fuel r).map (fun p => (f :: p.1, p.2))
        else if c = '\n' then some ([f], r)
        else none

/-- Modelled from the spec: parse one CSV record of the store.  A
record has at most one field per remaining character plus one, so this
fuel always suffices. -/
def parseRow (s : List Char) : Option (List (List Char) × List Char) :=
  parseRowFuel (s.length + 1) s

/-- Modelled from the spec: parse the whole store as a sequence of CSV
records.  `fuel` bounds the number of records. -/
def parseRows : Nat → List Char → Option (List (List (List Char)))
  | 0, s => if s = [] then some [] else none
  | fuel + 1, s =>
    if s = [] then some []
    else (parseRow s).bind (fun p => (parseRows fuel p.2).map (fun rs => p.1 :: rs))

/-- Modelled from the spec: the Ingestion Queue —
`tokio::sync::mpsc::channel(queue_size)` is library code, not part of
src — as a bounded, ordered channel: a capacity and the items
currently buffered, oldest first. -/
structure BoundedQueue (α : Type) where
  cap : Nat
  items : List α
deriving DecidableEq

/-- Modelled from the spec: enqueue.  On a full queue the producer
stays suspended — the send does not complete (`none`), and the queue
is unchanged: nothing is dropped or overwritten. -/
def qsend {α : Type} (q : BoundedQueue α) (x : α) : Option (BoundedQueue α) :=
  if q.items.length < q.cap then some ⟨q.cap, q.items ++ [x]⟩ else none

/-- Modelled from the spec: dequeue the oldest buffered item, freeing
one slot. -/
def qrecv {α : Type} (q : BoundedQueue α) : Option (α × BoundedQueue α) :=
  match q.items with
  | [] => none
  | x :: rest => some (x, ⟨q.cap, rest⟩)

/-- Enqueue a list of items in order; `none` as soon as one send
cannot complete. -/
def qsendAll {α : Type} (q : BoundedQueue α) : List α → Option (BoundedQueue α)
  | [] => some q
  | x :: xs => (qsend q x).bind (fun q2 => qsendAll q2 xs)

/-- Dequeue repeatedly until the queue is empty; `fuel` bounds the
number of dequeues. -/
def qdrainFuel {α : Type} : Nat → BoundedQueue α → List α
  | 0, _ => []
  | fuel + 1, q =>
    match qrecv q with
    | none => []
    | some (x, q2) => x :: qdrainFuel fuel q2

/-- The sequence a consumer dequeues when it drains the queue. -/
def qdrain {α : Type} (q : BoundedQueue α) : List α :=
  qdrainFuel q.items.length q

/-! ## Decimal digits and `u8` parsing -/

/-- A digit below ten prints as the character with code `48 + d`. -/
theorem digitChar_toNat (d : Nat) (h : d < 10) : (Nat.digitChar d).toNat = 48 + d := by
  interval_cases d <;> rfl

/-- A digit below ten prints as an ASCII digit character. -/
theorem digitChar_isDigit (d : Nat) (h : d < 10) : (Nat.digitChar d).isDigit = true := by
  interval_cases d <;> decide

/-- The fuel does not matter once it exceeds the value printed. -/
theorem natCharsFuel_eq (fuel1 fuel2 n : Nat) (h1 : n < fuel1) (h2 : n < fuel2) :
    natCharsFuel fuel1 n = natCharsFuel fuel2 n := by
  induction fuel1 generalizing fuel2 n with
  | zero => omega
  | succ f1 ih =>
    cases fuel2 with
    | zero => omega
    | succ f2 =>
      rw [natCharsFuel, natCharsFuel]
      split
      · rfl
      · rw [ih f2 (n / 10) (by omega) (by omega)]

/-- The printing recursion, stated without the fuel. -/
theorem natChars_unfold (n : Nat) :
    natChars n =
      if n < 10 then [Nat.digitChar n]
      else natChars (n / 10) ++ [Nat.digitChar (n % 10)] := by
  rw [natChars, natChars, natCharsFuel]
  split
  · rfl
  · rw [natCharsFuel_eq n (n / 10 + 1) (n / 10) (by omega) (by omega)]

/-- A number always prints at least one digit. -/
theorem natChars_ne_nil (n : Nat) : natChars n ≠ [] := by
  rw [natChars_unfold]
  split
  · simp
  · simp

/-- Every character a number prints is an ASCII digit. -/
theorem natChars_all_digit (n : Nat) : ∀ c ∈ natChars n, c.isDigit = true := by
  induction n using Nat.strong_induction_on with
  | _ n ih =>
    rw [natChars_unfold]
    split
    · intro c hc
      rw [List.mem_singleton] at hc
      subst hc
      exact digitChar_isDigit n (by omega)
    · intro c hc
      rw [List.mem_append, List.mem_singleton] at hc
      rcases hc with hc | hc
      · exact ih (n / 10) (Nat.div_lt_self (by omega) (by omega)) c hc
      · subst hc
        exact digitChar_isDigit (n % 10) (Nat.mod_lt _ (by omega))

/-- Appending one digit multiplies the accumulated value by ten. -/
theorem digitsVal_append_digit (l : List Char) (c : Char) :
    digitsVal (l ++ [c]) = digitsVal l * 10 + (c.toNat - 48) := by
  simp [digitsVal, List.foldl_append]

/-- Printing then re-reading a number is the identity. -/
theorem digitsVal_natChars (n : Nat) : digitsVal (natChars n) = n := by
  induction n using Nat.strong_induction_on with
  | _ n ih =>
    rw [natChars_unfold]
    split
    · simp [digitsVal, digitChar_toNat n (by omega)]
    · rw [digitsVal_append_digit, ih (n / 10) (Nat.div_lt_self (by omega) (by omega)),
        digitChar_toNat (n % 10) (Nat.mod_lt _ (by omega))]
      omega

/-- A printed number never starts with a sign. -/
theorem stripPlus_natChars (n : Nat) : stripPlus (natChars n) = natChars n := by
  cases h : natChars n with
  | nil => exact absurd h (natChars_ne_nil n)
  | cons c cs =>
    have hc : c.isDigit = true := natChars_all_digit n c (h ▸ List.mem_cons_self c cs)
    rw [stripPlus]
    have : c ≠ '+' := by
      intro he
      subst he
      exact absurd hc (by decide)
    simp [this]

/-- Rust's `u8` parser accepts the decimal print of any value that
fits. -/
theorem parseU8_natChars (n : Nat) (h : n ≤ 255) : parseU8 (natChars n) = some n := by
  simp only [parseU8, stripPlus_natChars]
  rw [if_pos, digitsVal_natChars]
  refine ⟨natChars_ne_nil n, ?_, ?_⟩
  · rw [List.all_eq_true]
    intro c hc
    exact natChars_all_digit n c hc
  · rw [digitsVal_natChars]
    exact h

/-- Whatever Rust's `u8` parser accepts fits in a `u8`. -/
theorem parseU8_le (s : List Char) (n : Nat) (h : parseU8 s = some n) : n ≤ 255 := by
  simp only [parseU8] at h
  split at h
  · rename_i hcond
    injection h with h2
    exact h2 ▸ hcond.2.2
  · exact absurd h (by simp)

/-- C1: whenever the priority parser succeeds, the parsed integer
`pri` is in [0,255], the returned facility is `pri >>> 3`, the
returned severity is `pri &&& 7`, and consequently the severity is at
most 7 and the facility at most 31. -/
theorem parse_priority_bounds (s : List Char) (fac sev : Nat)
    (h : parse_priority s = .ret (.ok (fac, sev))) :
    ∃ pri, pri ≤ 255 ∧ fac = pri >>> 3 ∧ sev = pri &&& 7 ∧ sev ≤ 7 ∧ fac ≤ 31 := by
  unfold parse_priority at h
  split at h
  · simp at h
  · split at h
    · simp at h
    · split at h
      · split at h
        · simp at h
        · rename_i p hp
          have hle := parseU8_le _ _ hp
          have hfs : p >>> 3 = fac ∧ p &&& 7 = sev := by
            simpa using h
          refine ⟨p, hle, hfs.1.symm, hfs.2.symm, ?_, ?_⟩
          · exact hfs.2 ▸ Nat.and_le_right
          · rw [← hfs.1, Nat.shiftRight_eq_div_pow]
            omega
      · simp at h

/-- C1 witness: the concrete datagram `<13>x` parses and the bounds
hold at it. -/
theorem parse_priority_bounds_witness :
    parse_priority ("<13>x".toList) = .ret (.ok (1, 5)) ∧
    ∃ pri, pri ≤ 255 ∧ 1 = pri >>> 3 ∧ 5 = pri &&& 7 ∧ 5 ≤ 7 ∧ 1 ≤ 31 :=
  ⟨rfl, parse_priority_bounds ("<13>x".toList) 1 5 rfl⟩

/-- C4: the parser is not total — on `>a<5>` the first `>` of the text
precedes the first `<`, the Rust slice `pri_start + 1..pri_end` is
invalid, and the call panics instead of returning `Ok` or an error. -/
theorem parse_priority_crash_example :
    parse_priority (">a<5>".toList) = .crash := rfl

/-! ## Locating the delimiters -/

/-- Characters the search predicate rejects shift the found index. -/
theorem findIdx?_append_skip (f : Char → Bool) (l rest : List Char)
    (h : ∀ c ∈ l, f c = false) :
    (l ++ rest).findIdx? f = (rest.findIdx? f).map (· + l.length) := by
  induction l with
  | nil => cases hr : rest.findIdx? f <;> simp [hr]
  | cons c cs ih =>
    have hc := h c (List.mem_cons_self c cs)
    rw [List.cons_append, List.findIdx?_cons, hc]
    rw [if_neg (by simp), List.findIdx?_succ,
      ih (fun d hd => h d (List.mem_cons_of_mem c hd))]
    cases hr : rest.findIdx? f
    · simp [hr]
    · simp [hr]
      omega

/-- Taking exactly the length of a prefix returns that prefix. -/
theorem take_append_length (l1 l2 : List Char) : (l1 ++ l2).take l1.length = l1 := by
  induction l1 with
  | nil => simp
  | cons c cs ih => simp [ih]

/-- Dropping exactly the length of a prefix returns the suffix. -/
theorem drop_append_length (l1 l2 : List Char) : (l1 ++ l2).drop l1.length = l2 := by
  induction l1 with
  | nil => simp
  | cons c cs ih => simp [ih]

/-- An ASCII digit is not the closing delimiter. -/
theorem digit_ne_gt (c : Char) (h : c.isDigit = true) : (c == '>') = false := by
  cases hb : c == '>' with
  | false => rfl
  | true =>
    have hc : c = '>' := by simpa using hb
    subst hc
    exact absurd h (by decide)

/-- Taking a prefix plus `n` more characters keeps the prefix whole. -/
theorem take_length_add (l1 l2 : List Char) (n : Nat) :
    (l1 ++ l2).take (l1.length + n) = l1 ++ l2.take n := by
  induction l1 with
  | nil => simp
  | cons c cs ih =>
    have harith : (c :: cs).length + n = (cs.length + n) + 1 := by
      simp [Nat.add_right_comm]
    rw [harith, List.cons_append, List.take_succ_cons, ih, List.cons_append]

/-- C10: the parser does not need the `<` at the start of the message:
any prefix free of both delimiters, then `<pri>` with `pri` printed in
decimal and at most 255, parses to the facility and severity derived
from `pri`. -/
theorem parse_priority_mid_message (p s : List Char) (pri : Nat)
    (hp : ∀ c ∈ p, c ≠ '<' ∧ c ≠ '>') (hpri : pri ≤ 255) :
    parse_priority (p ++ '<' :: natChars pri ++ '>' :: s) =
      .ret (.ok (pri >>> 3, pri &&& 7)) := by
  have hplt : ∀ c ∈ p, ((c == '<') : Bool) = false := by
    intro c hc
    simp [(hp c hc).1]
  have hlt : (p ++ '<' :: natChars pri ++ '>' :: s).findIdx? (· == '<') =
      some p.length := by
    rw [List.append_assoc, findIdx?_append_skip _ p _ hplt, List.cons_append,
      List.findIdx?_cons]
    simp
  have hall : ∀ c ∈ p ++ '<' :: natChars pri, ((c == '>') : Bool) = false := by
    intro c hc
    rw [List.mem_append, List.mem_cons] at hc
    rcases hc with hc | hc | hc
    · simp [(hp c hc).2]
    · subst hc; decide
    · exact digit_ne_gt c (natChars_all_digit pri c hc)
  have hgt : (p ++ '<' :: natChars pri ++ '>' :: s).findIdx? (· == '>') =
      some (p.length + 1 + (natChars pri).length) := by
    rw [findIdx?_append_skip _ _ _ hall, List.findIdx?_cons]
    have hbeq : (('>' == '>') = true) := rfl
    rw [if_pos hbeq]
    simp only [Option.map_some', List.length_append, List.length_cons,
      Option.some.injEq]
    omega
  have htake : (p ++ '<' :: natChars pri ++ '>' :: s).take
      (p.length + 1 + (natChars pri).length) = p ++ '<' :: natChars pri := by
    have hlen : p.length + 1 + (natChars pri).length =
        (p ++ '<' :: natChars pri).length := by
      simp only [List.length_append, List.length_cons]
      omega
    rw [hlen, take_append_length]
  have hdrop : (p ++ '<' :: natChars pri).drop (p.length + 1) = natChars pri := by
    have h2 : p ++ '<' :: natChars pri = (p ++ ['<']) ++ natChars pri := by simp
    have hlen : p.length + 1 = (p ++ ['<']).length := by simp
    rw [h2, hlen, drop_append_length]
  simp only [parse_priority, hlt, hgt, htake, hdrop]
  rw [if_pos (by omega), parseU8_natChars pri hpri]

/-- C10 witness: the concrete message `ab<13>xy`. -/
theorem parse_priority_mid_message_witness :
    parse_priority ("ab".toList ++ '<' :: natChars 13 ++ '>' :: "xy".toList) =
      .ret (.ok (13 >>> 3, 13 &&& 7)) :=
  parse_priority_mid_message "ab".toList "xy".toList 13 (by decide) (by decide)

/-! ## Message normalization (record builder) -/

/-- Deleting every `t` is filtering on not being `t`. -/
theorem replaceChar_eq_filter (t : Char) (s : List Char) :
    replaceChar t s = s.filter (fun c => c != t) := by
  induction s with
  | nil => rfl
  | cons c cs ih =>
    simp only [replaceChar, List.filter_cons]
    by_cases hc : c = t
    · simp [hc, ih]
    · simp [hc, ih]

/-- Trimming only removes whitespace at the two ends: the original
list is the trimmed list surrounded by all-whitespace pieces. -/
theorem rustTrim_decomp (l : List Char) :
    ∃ pre suf, (∀ c ∈ pre, rustIsWhitespace c = true) ∧
      (∀ c ∈ suf, rustIsWhitespace c = true) ∧
      l = pre ++ rustTrim l ++ suf := by
  refine ⟨l.takeWhile rustIsWhitespace,
    ((l.dropWhile rustIsWhitespace).reverse.takeWhile rustIsWhitespace).reverse,
    ?_, ?_, ?_⟩
  · exact fun c hc => List.mem_takeWhile_imp hc
  · intro c hc
    rw [List.mem_reverse] at hc
    exact List.mem_takeWhile_imp hc
  · have h2 : l.dropWhile rustIsWhitespace =
        ((l.dropWhile rustIsWhitespace).reverse.dropWhile rustIsWhitespace).reverse ++
        ((l.dropWhile rustIsWhitespace).reverse.takeWhile rustIsWhitespace).reverse := by
      conv_rhs =>
        rw [← List.reverse_append, List.takeWhile_append_dropWhile,
          List.reverse_reverse]
    conv_lhs =>
      rw [← List.takeWhile_append_dropWhile (p := rustIsWhitespace) (l := l)]
    rw [List.append_assoc]
    exact congrArg (fun x => l.takeWhile rustIsWhitespace ++ x) h2

/-- C6: the message field of every constructed record is the datagram
text with every newline character removed and then trimmed, and
trimming only drops leading and trailing whitespace — the newline-free
text is exactly the message surrounded by whitespace ends, so no other
character is altered or removed. -/
theorem message_normalization (now : Timestamp) (ip text : List Char)
    (fac sev : Nat) :
    (buildEntry now ip text fac sev).syslog =
      rustTrim (text.filter (fun c => c != '\n')) ∧
    ∃ pre suf, (∀ c ∈ pre, rustIsWhitespace c = true) ∧
      (∀ c ∈ suf, rustIsWhitespace c = true) ∧
      text.filter (fun c => c != '\n') =
        pre ++ (buildEntry now ip text fac sev).syslog ++ suf := by
  have hb : (buildEntry now ip text fac sev).syslog =
      rustTrim (replaceChar '\n' text) := rfl
  rw [hb, replaceChar_eq_filter]
  exact ⟨rfl, rustTrim_decomp _⟩

/-! ## The dispatcher state transition -/

/-- C5: when priority parsing fails with an error, `handle_log`
increments the received counter exactly once, leaves the written
counter untouched, and appends nothing to the store. -/
theorem parse_failure_counters (st : HState) (now : Timestamp)
    (ip text : List Char) (msg : String)
    (h : parse_priority text = .ret (.error msg)) :
    handle_log st now ip text =
      .returned ⟨st.received + 1, st.written, st.store⟩ (.error msg) := by
  simp only [handle_log, h]

/-- C5 witness at the malformed datagram `no priority here`. -/
theorem parse_failure_counters_witness :
    handle_log ⟨0, 0, []⟩ ⟨2024, 1, 1, 0, 0, 0, 0⟩ ("1.2.3.4".toList)
      ("no priority here".toList) =
      .returned ⟨1, 0, []⟩ (.error "No priority found") :=
  parse_failure_counters ⟨0, 0, []⟩ ⟨2024, 1, 1, 0, 0, 0, 0⟩
    ("1.2.3.4".toList) ("no priority here".toList) "No priority found" rfl

/-- A non-empty left part keeps an append non-empty. -/
theorem append_ne_nil_left (l1 l2 : List Char) (h : l1 ≠ []) : l1 ++ l2 ≠ [] := by
  cases l1
  · exact absurd rfl h
  · simp

/-- The year field always prints at least one character. -/
theorem pad4_ne_nil (n : Nat) : pad4 n ≠ [] := by
  rw [pad4]
  split
  · simp
  · split
    · simp
    · split
      · simp
      · exact natChars_ne_nil n

/-- The formatted clock string is never empty. -/
theorem formatTimestamp_ne_nil (t : Timestamp) : formatTimestamp t ≠ [] := by
  rw [formatTimestamp]
  apply append_ne_nil_left
  apply append_ne_nil_left
  apply append_ne_nil_left
  apply append_ne_nil_left
  apply append_ne_nil_left
  apply append_ne_nil_left
  exact pad4_ne_nil t.year

/-- C2 (amended): processing `<13>test message` from `10.0.0.5`
advances both counters and appends one record whose facility is 1,
severity 5, device_ip `10.0.0.5`, event_time the non-empty formatted
clock — and whose message field is the whole datagram text
`<13>test message`: the priority prefix is not stripped, so the field
is not the bare `test message` of the original claim. -/
theorem end_to_end_amended (st : HState) (now : Timestamp) :
    handle_log st now ("10.0.0.5".toList) ("<13>test message".toList) =
      .returned ⟨st.received + 1, st.written + 1,
        write_to_csv st.store
          (buildEntry now ("10.0.0.5".toList) ("<13>test message".toList) 1 5)⟩
        (.ok ()) ∧
    (buildEntry now ("10.0.0.5".toList) ("<13>test message".toList) 1 5).facility
      = 1 ∧
    (buildEntry now ("10.0.0.5".toList) ("<13>test message".toList) 1 5).severity
      = 5 ∧
    (buildEntry now ("10.0.0.5".toList) ("<13>test message".toList) 1 5).syslog
      = "<13>test message".toList ∧
    (buildEntry now ("10.0.0.5".toList) ("<13>test message".toList) 1 5).device_ip
      = "10.0.0.5".toList ∧
    (buildEntry now ("10.0.0.5".toList) ("<13>test message".toList) 1 5).event_time
      = formatTimestamp now ∧
    formatTimestamp now ≠ [] := by
  have hp : parse_priority ("<13>test message".toList) = .ret (.ok (1, 5)) := rfl
  refine ⟨?_, rfl, rfl, rfl, rfl, rfl, formatTimestamp_ne_nil now⟩
  simp only [handle_log, hp]

/-- C2 counterexample: the record built for `<13>test message` does not
carry `test message` as its message field. -/
theorem end_to_end_message_counterexample :
    (buildEntry ⟨2024, 1, 1, 0, 0, 0, 0⟩ ("10.0.0.5".toList)
      ("<13>test message".toList) 1 5).syslog ≠ "test message".toList := by
  decide

/-! ## The writer -/

/-- C7: one writer invocation appends, after the unchanged store, the
header row immediately followed by the data row when the store had
size zero at open, and exactly the one data row (no header) when the
store was non-empty. -/
theorem writer_header_exactly_when_empty (store : List Char) (e : SysLogEntry) :
    write_to_csv store e =
      store ++ (if store.length = 0 then headerRow ++ serializeRow (entryFields e)
        else serializeRow (entryFields e)) := by
  by_cases h : store.length = 0
  · simp [write_to_csv, h, List.append_assoc]
  · simp [write_to_csv, h]

/-- C3 (amended): every write appends one row carrying the record's
fields in the fixed order event_time, device_ip, syslog (the message
text), severity, facility, comma-separated; each field is quoted, with
inner quotes doubled, exactly when it contains a quote, comma, CR or
LF — not unconditionally — and the header row, whose columns are named
`event_time,device_ip,syslog,severity,facility`, comes first exactly
when the store was empty. -/
theorem writer_row_format (store : List Char) (e : SysLogEntry) :
    write_to_csv store e =
      store ++ (if store.length = 0 then headerRow else []) ++
        (quoteField e.event_time ++ ',' :: (quoteField e.device_ip ++ ',' ::
          (quoteField e.syslog ++ ',' :: (quoteField (natChars e.severity) ++ ',' ::
            (quoteField (natChars e.facility) ++ ['\n']))))) := by
  simp [write_to_csv, serializeRow, entryFields, joinComma, List.append_assoc]

/-- C3 counterexample: a concrete first write whose stored bytes
contain no double quote at all — none of the five fields is
double-quoted — and whose header names the message column `syslog`
rather than `message`. -/
theorem writer_quoting_counterexample :
    write_to_csv []
        ⟨"2024-01-01 00:00:00.000".toList, "10.0.0.5".toList,
          "hello".toList, 5, 1⟩ =
      ("event_time,device_ip,syslog,severity,facility\n" ++
        "2024-01-01 00:00:00.000,10.0.0.5,hello,5,1\n").toList ∧
    (write_to_csv []
        ⟨"2024-01-01 00:00:00.000".toList, "10.0.0.5".toList,
          "hello".toList, 5, 1⟩).all (fun c => c != '"') = true := by
  constructor
  · rfl
  · decide

/-! ## CSV round trip -/

/-- An unquoted field scans back exactly when none of its characters
is a delimiter or terminator and the rest starts at one (or is the end
of input). -/
theorem scanUnquoted_exact (f rest : List Char)
    (hf : ∀ c ∈ f, c ≠ ',' ∧ c ≠ '\n')
    (hrest : rest = [] ∨ rest.head? = some ',' ∨ rest.head? = some '\n') :
    scanUnquoted (f ++ rest) = (f, rest) := by
  induction f with
  | nil =>
    rcases hrest with h | h | h
    · subst h; rfl
    · cases rest with
      | nil => simp at h
      | cons d ds =>
        simp only [List.head?_cons, Option.some.injEq] at h
        subst h
        simp [scanUnquoted]
    · cases rest with
      | nil => simp at h
      | cons d ds =>
        simp only [List.head?_cons, Option.some.injEq] at h
        subst h
        simp [scanUnquoted]
  | cons c cs ih =>
    have hc := hf c (List.mem_cons_self c cs)
    have hcond : ¬(c = ',' ∨ c = '\n') := by
      intro hor
      rcases hor with hor | hor
      · exact hc.1 hor
      · exact hc.2 hor
    rw [List.cons_append, scanUnquoted, if_neg hcond,
      ih (fun d hd => hf d (List.mem_cons_of_mem c hd))]

/-- One unfolding step of the quoted-field scanner. -/
theorem scanQuoted_cons (c : Char) (r : List Char) :
    scanQuoted (c :: r) =
      if c = '"' then
        match r with
        | [] => some ([], [])
        | d :: r2 =>
          if d = '"' then (scanQuoted r2).map (fun p => ('"' :: p.1, p.2))
          else some ([], d :: r2)
      else (scanQuoted r).map (fun p => (c :: p.1, p.2)) := by
  rw [scanQuoted.eq_def]

/-- A quoted field scans back through its escaping, for any following
input that does not immediately continue with a quote. -/
theorem scanQuoted_exact (f rest : List Char)
    (hrest : rest.head? ≠ some '"') :
    scanQuoted (escapeQuotes f ++ '"' :: rest) = some (f, rest) := by
  induction f with
  | nil =>
    simp only [escapeQuotes, List.nil_append]
    rw [scanQuoted_cons, if_pos rfl]
    cases rest with
    | nil => rfl
    | cons d ds =>
      have hd : d ≠ '"' := by
        intro h
        subst h
        exact hrest rfl
      simp [hd]
  | cons c cs ih =>
    by_cases hc : c = '"'
    · subst hc
      rw [escapeQuotes, if_pos rfl, List.cons_append, List.cons_append,
        scanQuoted_cons, if_pos rfl]
      simp [ih]
    · rw [escapeQuotes, if_neg hc, List.cons_append, scanQuoted_cons, if_neg hc]
      simp [ih]

/-- A serialized field — quoted or not — parses back exactly, whatever
the field contained, whenever the rest starts at a delimiter or
terminator or is the end of input. -/
theorem parseField_exact (f rest : List Char)
    (hrest : rest = [] ∨ rest.head? = some ',' ∨ rest.head? = some '\n') :
    parseField (quoteField f ++ rest) = some (f, rest) := by
  rw [quoteField]
  by_cases hq : needsQuote f = true
  · rw [if_pos hq]
    have hr : ('"' :: (escapeQuotes f ++ ['"'])) ++ rest =
        '"' :: (escapeQuotes f ++ '"' :: rest) := by
      simp
    rw [hr, parseField, if_pos rfl]
    apply scanQuoted_exact
    rcases hrest with h | h | h
    · subst h; simp
    · rw [h]; simp
    · rw [h]; simp
  · rw [if_neg hq]
    have hnospec : ∀ c ∈ f, c ≠ '"' ∧ c ≠ ',' ∧ c ≠ '\n' := by
      intro c hc
      have hfalse : needsQuote f = false := by
        cases hnq : needsQuote f
        · rfl
        · exact absurd hnq hq
      rw [needsQuote, List.any_eq_false] at hfalse
      have h4 := hfalse c hc
      simp only [Bool.or_eq_true, beq_iff_eq, not_or] at h4
      exact ⟨h4.1.1.1, h4.1.1.2, h4.1.2⟩
    have hf2 : ∀ c ∈ f, c ≠ ',' ∧ c ≠ '\n' :=
      fun c hc => ⟨(hnospec c hc).2.1, (hnospec c hc).2.2⟩
    have hpf : parseField (f ++ rest) = some (scanUnquoted (f ++ rest)) := by
      cases hfr : f ++ rest with
      | nil => rfl
      | cons c r =>
        have hcq : c ≠ '"' := by
          cases f with
          | nil =>
            simp only [List.nil_append] at hfr
            rcases hrest with h | h | h
            · rw [h] at hfr; cases hfr
            · rw [hfr] at h
              simp only [List.head?_cons, Option.some.injEq] at h
              subst h; decide
            · rw [hfr] at h
              simp only [List.head?_cons, Option.some.injEq] at h
              subst h; decide
          | cons a as =>
            rw [List.cons_append] at hfr
            injection hfr with h1 h2
            subst h1
            exact (hnospec a (List.mem_cons_self a as)).1
        rw [parseField, if_neg hcq, ← hfr]
    rw [hpf, scanUnquoted_exact f rest hf2 hrest]

/-- A serialized record has at least one character per field. -/
theorem serializeRow_length_ge (flds : List (List Char)) :
    flds.length ≤ (serializeRow flds).length := by
  induction flds with
  | nil => simp [serializeRow]
  | cons f fs ih =>
    cases fs with
    | nil => simp [serializeRow, joinComma]
    | cons g gs =>
      simp only [serializeRow, joinComma, List.map_cons, List.length_append,
        List.length_cons] at ih ⊢
      omega

/-- A serialized record parses back to its exact field list, leaving
the rest of the input untouched, with any fuel at least the field
count. -/
theorem parseRowFuel_exact (flds : List (List Char)) (rest : List Char)
    (fuel : Nat) (hne : flds ≠ []) (hfuel : flds.length ≤ fuel) :
    parseRowFuel fuel (serializeRow flds ++ rest) = some (flds, rest) := by
  induction flds generalizing fuel rest with
  | nil => exact absurd rfl hne
  | cons f fs ih =>
    cases fuel with
    | zero => simp at hfuel
    | succ fu =>
      cases fs with
      | nil =>
        have hs : serializeRow [f] ++ rest = quoteField f ++ ('\n' :: rest) := by
          simp [serializeRow, joinComma]
        rw [hs, parseRowFuel,
          parseField_exact f ('\n' :: rest) (Or.inr (Or.inr rfl))]
        simp
      | cons g gs =>
        have hs : serializeRow (f :: g :: gs) ++ rest =
            quoteField f ++ (',' :: (serializeRow (g :: gs) ++ rest)) := by
          simp [serializeRow, joinComma, List.append_assoc]
        rw [hs, parseRowFuel,
          parseField_exact f (',' :: (serializeRow (g :: gs) ++ rest))
            (Or.inr (Or.inl rfl))]
        have hlen : (g :: gs).length ≤ fu := by
          simp only [List.length_cons] at hfuel ⊢
          omega
        simp [ih rest fu (List.cons_ne_nil g gs) hlen]

/-- The default fuel of `parseRow` always suffices for a serialized
record. -/
theorem parseRow_exact (flds : List (List Char)) (rest : List Char)
    (hne : flds ≠ []) :
    parseRow (serializeRow flds ++ rest) = some (flds, rest) := by
  rw [parseRow]
  apply parseRowFuel_exact flds rest _ hne
  have h1 := serializeRow_length_ge flds
  have h2 : (serializeRow flds).length ≤ (serializeRow flds ++ rest).length := by
    simp [List.length_append]
  omega

/-- A serialized record is never the empty byte sequence. -/
theorem serializeRow_ne_nil (flds : List (List Char)) : serializeRow flds ≠ [] := by
  rw [serializeRow]
  intro h
  rw [List.append_eq_nil] at h
  cases h.2

/-- A store holding exactly a list of serialized non-empty records
parses back to those records. -/
theorem rowsJoin_parse (rows : List (List (List Char)))
    (hne : ∀ r ∈ rows, r ≠ []) :
    parseRows rows.length (rowsJoin rows) = some rows := by
  induction rows with
  | nil => rfl
  | cons r rs ih =>
    rw [rowsJoin, List.length_cons, parseRows,
      if_neg (append_ne_nil_left _ _ (serializeRow_ne_nil r)),
      parseRow_exact r (rowsJoin rs) (hne r (List.mem_cons_self r rs))]
    simp [ih (fun x hx => hne x (List.mem_cons_of_mem r hx))]

/-- Appending to a non-empty store never re-emits the header: the
fold over any record list just concatenates serialized rows. -/
theorem foldl_write_nonempty (es : List SysLogEntry) (acc : List Char)
    (h : acc ≠ []) :
    es.foldl write_to_csv acc = acc ++ rowsJoin (es.map entryFields) := by
  induction es generalizing acc with
  | nil => simp [rowsJoin]
  | cons e es ih =>
    rw [List.foldl_cons]
    have hw : write_to_csv acc e = acc ++ serializeRow (entryFields e) := by
      simp [write_to_csv, List.length_eq_zero, h]
    rw [hw, ih (acc ++ serializeRow (entryFields e))
      (append_ne_nil_left _ _ h)]
    simp [rowsJoin, List.append_assoc]

/-- Writing a non-empty batch to an initially empty store produces the
header row followed by each record's serialized row. -/
theorem writeAll_cons (e : SysLogEntry) (es : List SysLogEntry) :
    writeAll (e :: es) =
      rowsJoin (headerFields :: (e :: es).map entryFields) := by
  rw [writeAll, List.foldl_cons]
  have h1 : write_to_csv [] e = headerRow ++ serializeRow (entryFields e) := by
    simp [write_to_csv, List.append_assoc]
  have hhr : headerRow ≠ [] := serializeRow_ne_nil headerFields
  rw [h1, foldl_write_nonempty es _ (append_ne_nil_left _ _ hhr)]
  simp [rowsJoin, headerRow, List.append_assoc]

/-- C8: write any records to an initially empty store, then re-parse
the store as the same tabular format: parsing succeeds and returns
exactly the header fields followed by each record's field values in
order — for every field content, embedded commas and double quotes
included, which the serialization escapes correctly. -/
theorem csv_round_trip (e : SysLogEntry) (es : List SysLogEntry) :
    parseRows (es.length + 2) (writeAll (e :: es)) =
      some (headerFields :: entryFields e :: es.map entryFields) := by
  rw [writeAll_cons]
  have hlen : (headerFields :: (e :: es).map entryFields).length =
      es.length + 2 := by
    simp
  rw [← hlen]
  have hrows : parseRows (headerFields :: (e :: es).map entryFields).length
      (rowsJoin (headerFields :: (e :: es).map entryFields)) =
      some (headerFields :: (e :: es).map entryFields) := by
    apply rowsJoin_parse
    intro r hr
    rcases List.mem_cons.mp hr with h | h
    · subst h
      simp [headerFields]
    · rw [List.mem_map] at h
      obtain ⟨x, _, hx⟩ := h
      rw [← hx]
      simp [entryFields]
  rw [hrows]
  simp

/-! ## The Ingestion Queue (spec-modelled) -/

/-- Enqueueing a batch that fits entirely appends it in order. -/
theorem qsendAll_fits {α : Type} (xs : List α) (C : Nat) (acc : List α)
    (h : acc.length + xs.length ≤ C) :
    qsendAll ⟨C, acc⟩ xs = some ⟨C, acc ++ xs⟩ := by
  induction xs generalizing acc with
  | nil => simp [qsendAll]
  | cons x xs ih =>
    rw [qsendAll, qsend]
    simp only [List.length_cons] at h
    rw [if_pos (by simp; omega)]
    simp only [Option.some_bind]
    rw [ih (acc ++ [x]) (by simp; omega)]
    simp

/-- Draining with fuel equal to the buffered count returns exactly the
buffered items in order. -/
theorem qdrainFuel_items {α : Type} (items : List α) (C : Nat) :
    qdrainFuel items.length (⟨C, items⟩ : BoundedQueue α) = items := by
  induction items with
  | nil => rfl
  | cons x xs ih =>
    rw [List.length_cons, qdrainFuel, qrecv]
    simp [ih]

/-- The consumer dequeues precisely the buffered sequence, oldest
first. -/
theorem qdrain_items {α : Type} (q : BoundedQueue α) : qdrain q = q.items := by
  rw [qdrain]
  cases q with
  | mk cap items => exact qdrainFuel_items items cap

/-- C9 (spec-modelled): with capacity `C = (x :: xs).length`, the
queue accepts the `C` items `x :: xs` in order and drops none; the
`(C+1)`-th send does not complete (the producer stays suspended) and
leaves the queue unchanged; dequeue returns the oldest item `x`,
freeing a slot after which the pending send completes; and draining
dequeues exactly the enqueued sequence in FIFO order. -/
theorem queue_backpressure_fifo {α : Type} (x y : α) (xs : List α) :
    qsendAll ⟨(x :: xs).length, []⟩ (x :: xs) =
      some ⟨(x :: xs).length, x :: xs⟩ ∧
    qsend (⟨(x :: xs).length, x :: xs⟩ : BoundedQueue α) y = none ∧
    qrecv (⟨(x :: xs).length, x :: xs⟩ : BoundedQueue α) =
      some (x, ⟨(x :: xs).length, xs⟩) ∧
    qsend (⟨(x :: xs).length, xs⟩ : BoundedQueue α) y =
      some ⟨(x :: xs).length, xs ++ [y]⟩ ∧
    qdrain (⟨(x :: xs).length, x :: xs⟩ : BoundedQueue α) = x :: xs := by
  refine ⟨?_, ?_, rfl, ?_, ?_⟩
  · have := qsendAll_fits (x :: xs) (x :: xs).length [] (by simp)
    simpa using this
  · rw [qsend, if_neg (by simp)]
  · rw [qsend, if_pos (by simp)]
  · exact qdrain_items _
